import Mathlib

/-!
Verification of the login-name generator `ugen.py`: the record parser
`read_input_files` and the login generator `create_login_name`, embedded
shallowly.  Python strings are modelled as lists of characters (ASCII case
folding, as the spec fixes for `lower`), the mutable login set as a
`Finset` threaded through each call, and file I/O as a list of per-file
outcomes: the lines a file yielded, or a read failure after yielding a
(possibly empty) prefix of its lines.
-/

namespace UGen

/-- Strings of the Python program, modelled as lists of characters. -/
abbrev Str := List Char

/-- Concrete string literals, written via Lean string syntax. -/
def str (s : String) : Str := s.data

/-- Python `str.lower` (plain per-character case folding, as in the spec). -/
def pyLower (s : Str) : Str := s.map Char.toLower

/-- Python `str.strip`: drop leading and trailing whitespace. -/
def pyStrip (s : Str) : Str :=
  ((s.dropWhile Char.isWhitespace).reverse.dropWhile Char.isWhitespace).reverse

/-- Python `line.split(sep)` for a one-character separator: the list of
(possibly empty) chunks between occurrences of `sep`. -/
def pySplit (sep : Char) (s : Str) : List Str :=
  s.foldr
    (fun c acc =>
      match acc with
      | [] => [[c]]
      | a :: as => if c = sep then [] :: a :: as else (c :: a) :: as)
    [[]]

/-- Python `sep.join(xs)`. -/
def pyJoin (sep : Str) (xs : List Str) : Str := List.intercalate sep xs

/-- Python `str.isdigit`: non-empty and made of decimal digits only. -/
def pyIsDigit (s : Str) : Bool := !s.isEmpty && s.all Char.isDigit

/-- The character of one decimal digit. -/
def digitChar : Nat → Char
  | 0 => '0'
  | 1 => '1'
  | 2 => '2'
  | 3 => '3'
  | 4 => '4'
  | 5 => '5'
  | 6 => '6'
  | 7 => '7'
  | 8 => '8'
  | _ => '9'

/-- Decimal digits of `n`, most significant first ( `[]` for `0` );
`fuel` only bounds the recursion and is irrelevant once `n ≤ fuel`. -/
def natStrAux : Nat → Nat → Str
  | _, 0 => []
  | 0, _ + 1 => []
  | fuel + 1, n + 1 => natStrAux fuel ((n + 1) / 10) ++ [digitChar ((n + 1) % 10)]

/-- Python `str` on a non-negative integer: its decimal representation. -/
def natStr (n : Nat) : Str := if n = 0 then ['0'] else natStrAux n n

/-- The candidate the collision loop of `create_login_name` examines at
step `k`: `base_name` itself first, then `base_name + str(counter)` for
`counter = k ≥ 1`. -/
def candidate (base : Str) : Nat → Str
  | 0 => base
  | k + 1 => base ++ natStr (k + 1)

/-- The `while username in existing_logins` loop: starting at step `k`,
return the first candidate not in the registry; `fuel` only bounds the
recursion (the loop provably needs at most `reg.card + 1` steps). -/
def searchFrom (base : Str) (reg : Finset Str) : Nat → Nat → Option Str
  | 0, _ => none
  | fuel + 1, k =>
    if candidate base k ∈ reg then searchFrom base reg fuel (k + 1)
    else some (candidate base k)

/-- `initials = given_name[:1].lower()`, then the first letter of the
middle name when it is non-empty. -/
def mkInitials (given middle : Str) : Str :=
  pyLower (given.take 1) ++ (if middle = [] then [] else pyLower (middle.take 1))

/-- `base_name = (initials + family_name).lower()[:8]`. -/
def baseName (given middle family : Str) : Str :=
  (pyLower (mkInitials given middle ++ family)).take 8

/-- `create_login_name(given, middle, family, existing_logins)`: the first
free candidate over `base_name`, inserted into the registry and returned
together with the updated registry. -/
def create_login_name (given middle family : Str) (reg : Finset Str) :
    Str × Finset Str :=
  let base := baseName given middle family
  let username := (searchFrom base reg (reg.card + 1) 0).getD base
  (username, insert username reg)

/-- What processing one line does: nothing, a warning, or one record. -/
inductive LineOutcome where
  | skip : LineOutcome
  | warn (badId line : Str) : LineOutcome
  | record (userId givenName middleName surname department : Str) : LineOutcome
deriving DecidableEq

/-- The `if len(parts) == 5 / == 4 / > 5` field mapping: middle name,
surname and department extracted from the split parts. -/
def fieldMap (parts : List Str) : Str × Str × Str :=
  if parts.length = 5 then (parts.getD 2 [], parts.getD 3 [], parts.getD 4 [])
  else if parts.length = 4 then ([], parts.getD 2 [], parts.getD 3 [])
  else if 5 < parts.length then
    (parts.getD 2 [], parts.getD 3 [], pyJoin [':'] (parts.drop 4))
  else ([], [], [])

/-- The per-line branch structure of `read_input_files`: strip, skip empty
lines, split on `:` and strip the parts, require at least 4 parts, require
an all-digit id (warning otherwise), map the fields, and require a
non-blank surname. -/
def processLine (rawLine : Str) : LineOutcome :=
  let line := pyStrip rawLine
  if line = [] then .skip
  else
    let parts := (pySplit ':' line).map pyStrip
    if parts.length < 4 then .skip
    else
      let userId := parts.getD 0 []
      if !pyIsDigit userId then .warn userId line
      else
        let givenName := parts.getD 1 []
        let fm := fieldMap parts
        if pyStrip fm.2.1 = [] then .skip
        else .record userId givenName fm.1 fm.2.1 fm.2.2

/-- The f-string
`"{user_id}:{login}:{given_name}:{middle_name}:{surname}:{department}"`. -/
def outputLine (userId login givenName middleName surname department : Str) :
    Str :=
  userId ++ [':'] ++ login ++ [':'] ++ givenName ++ [':'] ++ middleName ++
    [':'] ++ surname ++ [':'] ++ department

/-- The warning printed for a non-numeric id (the program prints the
stripped line). -/
def warnMsg (badId line : Str) : Str :=
  str "[Warning] Invalid non-numeric ID \x27" ++ badId ++
    str "\x27 in line: " ++ line ++ str ". Skipping..."

/-- The error printed when reading a file fails. -/
def errMsg (path msg : Str) : Str :=
  str "[Error] Unexpected error reading " ++ path ++ str ": " ++ msg

/-- What one run of the parser produces: the combined records, the error
stream, and the final registry. -/
structure RunOut where
  records : List Str
  errors : List Str
  registry : Finset Str
deriving DecidableEq

/-- The body of the `for line in input_f` loop over the lines one file
yields, threading the shared registry. -/
def processLines : List Str → Finset Str → RunOut
  | [], reg => ⟨[], [], reg⟩
  | l :: ls, reg =>
    match processLine l with
    | .skip => processLines ls reg
    | .warn badId line =>
      let r := processLines ls reg
      ⟨r.records, warnMsg badId line :: r.errors, r.registry⟩
    | .record userId givenName middleName surname department =>
      let p := create_login_name givenName middleName surname reg
      let r := processLines ls p.2
      ⟨outputLine userId p.1 givenName middleName surname department :: r.records,
        r.errors, r.registry⟩

/-- One input file as the run observes it: either it yields all its lines,
or reading fails (at open, or mid-file after yielding a prefix of lines —
Python decodes lazily, so a decode or I/O error can surface after some
lines were already processed; a failure at open is `readError path [] msg`). -/
inductive InputFile where
  | ok (path : Str) (lines : List Str) : InputFile
  | readError (path : Str) (lines : List Str) (msg : Str) : InputFile

/-- `read_input_files(files, existing_logins)`: process each file in
order; a file whose read fails keeps the records of the lines it yielded
before failing, appends the error diagnostic, and processing continues
with the remaining files. -/
def read_input_files : List InputFile → Finset Str → RunOut
  | [], reg => ⟨[], [], reg⟩
  | InputFile.ok _ lines :: fs, reg =>
    let a := processLines lines reg
    let b := read_input_files fs a.registry
    ⟨a.records ++ b.records, a.errors ++ b.errors, b.registry⟩
  | InputFile.readError path lines msg :: fs, reg =>
    let a := processLines lines reg
    let b := read_input_files fs a.registry
    ⟨a.records ++ b.records, a.errors ++ (errMsg path msg :: b.errors),
      b.registry⟩

/-- A run of generator calls: thread the registry through a list of
(given, middle, family) triples, collecting the returned logins in order.
This is the sequence of calls `read_input_files` makes, abstracted from
the lines they came from. -/
def runGen : List (Str × Str × Str) → Finset Str → List Str × Finset Str
  | [], reg => ([], reg)
  | t :: ts, reg =>
    let p := create_login_name t.1 t.2.1 t.2.2 reg
    let r := runGen ts p.2
    (p.1 :: r.1, r.2)

/-- Modelled from the spec wording of the acceptance condition: the
surname part sits at `parts[2]` for exactly 4 parts and at `parts[3]`
otherwise. -/
def specSurnamePart (parts : List Str) : Str :=
  if parts.length = 4 then parts.getD 2 [] else parts.getD 3 []

/-- Modelled from the spec wording: a raw line is accepted when, after
trimming, it is non-empty, splits on `:` into at least 4 trimmed parts,
its first part is all decimal digits, and its surname part is non-empty
after trimming. -/
def specAccepts (raw : Str) : Bool :=
  let line := pyStrip raw
  let parts := (pySplit ':' line).map pyStrip
  decide (line ≠ []) && decide (4 ≤ parts.length) && pyIsDigit (parts.getD 0 []) &&
    decide (pyStrip (specSurnamePart parts) ≠ [])

/-- Modelled from the spec wording: a raw line draws a warning when, after
trimming, it is non-empty, has at least 4 parts, and its first part is not
all decimal digits. -/
def specWarns (raw : Str) : Bool :=
  let line := pyStrip raw
  let parts := (pySplit ':' line).map pyStrip
  decide (line ≠ []) && decide (4 ≤ parts.length) && !pyIsDigit (parts.getD 0 [])

/-! ### Decimal representation: stability, non-emptiness, injectivity -/

/-- The fuel argument of `natStrAux` is irrelevant once it dominates `n`. -/
theorem natStrAux_stable :
    ∀ fuel fuel' n, n ≤ fuel → n ≤ fuel' → natStrAux fuel n = natStrAux fuel' n := by
  intro fuel
  induction fuel with
  | zero =>
    intro fuel' n hn _
    have hn0 : n = 0 := Nat.le_zero.mp hn
    subst hn0
    cases fuel' <;> simp [natStrAux]
  | succ f ih =>
    intro fuel' n hn hn'
    match n, fuel' with
    | 0, fuel' => cases fuel' <;> simp [natStrAux]
    | m + 1, 0 => exact absurd hn' (by omega)
    | m + 1, f' + 1 =>
      have hd : (m + 1) / 10 < m + 1 := Nat.div_lt_self (Nat.succ_pos m) (by omega)
      simp only [natStrAux]
      rw [ih f' ((m + 1) / 10) (by omega) (by omega)]

/-- A positive number has a non-empty digit string. -/
theorem natStrAux_ne_nil (fuel n : Nat) (h1 : 1 ≤ n) (h2 : n ≤ fuel) :
    natStrAux fuel n ≠ [] := by
  match n, fuel with
  | m + 1, f + 1 => simp [natStrAux]

/-- `natStr` never returns the empty string. -/
theorem natStr_ne_nil (n : Nat) : natStr n ≠ [] := by
  by_cases h : n = 0
  · subst h; simp [natStr]
  · simp only [natStr, if_neg h]
    exact natStrAux_ne_nil n n (by omega) (by omega)

/-- Peeling the last decimal digit off `natStr`. -/
theorem natStr_peel (n : Nat) (hn : 1 ≤ n) :
    natStr n = (if n < 10 then [] else natStr (n / 10)) ++ [digitChar (n % 10)] := by
  match n with
  | m + 1 =>
    have hstep : natStr (m + 1) =
        natStrAux m ((m + 1) / 10) ++ [digitChar ((m + 1) % 10)] := by
      simp [natStr, natStrAux]
    by_cases hlt : m + 1 < 10
    · have hdiv : (m + 1) / 10 = 0 := Nat.div_eq_of_lt hlt
      rw [hstep, hdiv, if_pos hlt]
      cases m <;> simp [natStrAux]
    · have hdiv1 : 1 ≤ (m + 1) / 10 := by
        have : 10 ≤ m + 1 := by omega
        exact Nat.le_div_iff_mul_le (by omega) |>.mpr (by omega)
      have hdivm : (m + 1) / 10 ≤ m := by
        have := Nat.div_lt_self (Nat.succ_pos m) (show 1 < 10 by omega)
        omega
      rw [hstep, if_neg hlt]
      have hstable : natStrAux m ((m + 1) / 10) = natStrAux ((m + 1) / 10) ((m + 1) / 10) :=
        natStrAux_stable m ((m + 1) / 10) ((m + 1) / 10) hdivm (Nat.le_refl _)
      rw [hstable]
      have : natStr ((m + 1) / 10) = natStrAux ((m + 1) / 10) ((m + 1) / 10) := by
        simp [natStr]
        omega
      rw [this]

/-- `digitChar` is injective on decimal digits. -/
theorem digitChar_inj {a b : Nat} (ha : a < 10) (hb : b < 10) :
    digitChar a = digitChar b → a = b := by
  interval_cases a <;> interval_cases b <;> decide

/-- Only zero prints as the single digit `0`. -/
theorem natStr_eq_zero_digit {n : Nat} (h : natStr n = ['0']) : n = 0 := by
  by_cases hn : n = 0
  · exact hn
  · exfalso
    rw [natStr_peel n (by omega)] at h
    by_cases hlt : n < 10
    · rw [if_pos hlt] at h
      have hd : digitChar (n % 10) = digitChar 0 := by simpa using h
      have hmod : n % 10 = n := Nat.mod_eq_of_lt hlt
      have := digitChar_inj (Nat.mod_lt n (by omega)) (by omega) hd
      omega
    · rw [if_neg hlt] at h
      have hlen := congrArg List.length h
      rw [List.length_append] at hlen
      simp only [List.length_singleton] at hlen
      exact natStr_ne_nil (n / 10) (List.length_eq_zero.mp (by omega))

/-- Decimal representation is injective: distinct numbers print as
distinct strings. -/
theorem natStr_inj : ∀ m n : Nat, natStr m = natStr n → m = n := by
  intro m
  induction m using Nat.strong_induction_on with
  | _ m ih =>
    intro n h
    by_cases hm : m = 0
    · subst hm
      have h0 : natStr n = ['0'] := by
        rw [← h]
        simp [natStr]
      exact (natStr_eq_zero_digit h0).symm
    · by_cases hn : n = 0
      · subst hn
        have h0 : natStr m = ['0'] := by
          rw [h]
          simp [natStr]
        exact natStr_eq_zero_digit h0
      · rw [natStr_peel m (by omega), natStr_peel n (by omega)] at h
        obtain ⟨hpre, hdig⟩ := List.append_inj' h (by simp)
        have hmod : m % 10 = n % 10 := by
          have := List.cons_eq_cons.mp hdig
          exact digitChar_inj (Nat.mod_lt m (by omega)) (Nat.mod_lt n (by omega)) this.1
        by_cases hm10 : m < 10
        · by_cases hn10 : n < 10
          · have h1 : m % 10 = m := Nat.mod_eq_of_lt hm10
            have h2 : n % 10 = n := Nat.mod_eq_of_lt hn10
            omega
          · exfalso
            rw [if_pos hm10, if_neg hn10] at hpre
            exact natStr_ne_nil (n / 10) hpre.symm
        · by_cases hn10 : n < 10
          · exfalso
            rw [if_neg hm10, if_pos hn10] at hpre
            exact natStr_ne_nil (m / 10) hpre
          · rw [if_neg hm10, if_neg hn10] at hpre
            have hdivlt : m / 10 < m := Nat.div_lt_self (by omega) (by omega)
            have hdiv : m / 10 = n / 10 := ih (m / 10) hdivlt (n / 10) hpre
            omega

/-! ### The collision-resolution loop -/

/-- Distinct loop steps examine distinct candidates. -/
theorem candidate_injective (base : Str) : Function.Injective (candidate base) := by
  intro j k h
  match j, k with
  | 0, 0 => rfl
  | 0, k + 1 =>
    exfalso
    have hlen := congrArg List.length h
    simp only [candidate, List.length_append] at hlen
    have := natStr_ne_nil (k + 1)
    have : (natStr (k + 1)).length ≠ 0 := fun h0 => this (List.length_eq_zero.mp h0)
    omega
  | j + 1, 0 =>
    exfalso
    have hlen := congrArg List.length h
    simp only [candidate, List.length_append] at hlen
    have := natStr_ne_nil (j + 1)
    have : (natStr (j + 1)).length ≠ 0 := fun h0 => this (List.length_eq_zero.mp h0)
    omega
  | j + 1, k + 1 =>
    have := List.append_cancel_left (show base ++ natStr (j + 1) = base ++ natStr (k + 1) from h)
    exact natStr_inj (j + 1) (k + 1) this

/-- Pigeonhole: a finite registry cannot contain every candidate, so some
step at most `reg.card` is free. -/
theorem exists_candidate_free (base : Str) (reg : Finset Str) :
    ∃ j, j ≤ reg.card ∧ candidate base j ∉ reg := by
  by_contra hcon
  push_neg at hcon
  have hsub : (Finset.range (reg.card + 1)).image (candidate base) ⊆ reg := by
    intro x hx
    rw [Finset.mem_image] at hx
    obtain ⟨j, hj, rfl⟩ := hx
    rw [Finset.mem_range] at hj
    exact hcon j (by omega)
  have hcard := Finset.card_le_card hsub
  rw [Finset.card_image_of_injective _ (candidate_injective base),
    Finset.card_range] at hcard
  omega

/-- If a free candidate lies within the remaining fuel, the loop finds a
result. -/
theorem searchFrom_isSome (base : Str) (reg : Finset Str) :
    ∀ fuel start, (∃ j, j < fuel ∧ candidate base (start + j) ∉ reg) →
      (searchFrom base reg fuel start).isSome = true := by
  intro fuel
  induction fuel with
  | zero =>
    intro start h
    obtain ⟨j, hj, _⟩ := h
    omega
  | succ f ih =>
    intro start h
    obtain ⟨j, hj, hfree⟩ := h
    simp only [searchFrom]
    by_cases hmem : candidate base start ∈ reg
    · rw [if_pos hmem]
      apply ih
      match j with
      | 0 => exact absurd hmem (by simpa using hfree)
      | j + 1 =>
        refine ⟨j, by omega, ?_⟩
        have : start + 1 + j = start + (j + 1) := by omega
        rw [this]
        exact hfree
    · rw [if_neg hmem]
      rfl

/-- Whatever the loop returns is a candidate over `base` and was not in
the registry. -/
theorem searchFrom_spec (base : Str) (reg : Finset Str) :
    ∀ fuel start s, searchFrom base reg fuel start = some s →
      ∃ k, s = candidate base k ∧ s ∉ reg := by
  intro fuel
  induction fuel with
  | zero =>
    intro start s h
    simp [searchFrom] at h
  | succ f ih =>
    intro start s h
    simp only [searchFrom] at h
    by_cases hmem : candidate base start ∈ reg
    · rw [if_pos hmem] at h
      exact ih _ _ h
    · rw [if_neg hmem] at h
      obtain rfl : candidate base start = s := Option.some_inj.mp h
      exact ⟨start, rfl, hmem⟩

/-- Core contract of `create_login_name`: the returned login is a
candidate over the base name, it was not previously registered, and the
updated registry is exactly the old one plus the returned login. -/
theorem create_login_name_spec (g m f : Str) (reg : Finset Str) :
    (∃ k, (create_login_name g m f reg).1 = candidate (baseName g m f) k) ∧
    (create_login_name g m f reg).1 ∉ reg ∧
    (create_login_name g m f reg).2 = insert (create_login_name g m f reg).1 reg := by
  obtain ⟨j, hj, hfree⟩ := exists_candidate_free (baseName g m f) reg
  have hsome : (searchFrom (baseName g m f) reg (reg.card + 1) 0).isSome = true :=
    searchFrom_isSome _ _ _ _ ⟨j, by omega, by simpa using hfree⟩
  obtain ⟨s, hs⟩ := Option.isSome_iff_exists.mp hsome
  obtain ⟨k, hk, hnot⟩ := searchFrom_spec _ _ _ _ _ hs
  have hfst : (create_login_name g m f reg).1 = s := by
    simp [create_login_name, hs]
  refine ⟨⟨k, by rw [hfst, hk]⟩, ?_, rfl⟩
  rw [hfst]
  exact hnot

/-! ### Case folding is idempotent, so the initials survive the final
`lower` pass, and they survive truncation because they are at most two
characters long -/

/-- `Char.ofNat` on a valid code point round-trips through `toNat`. -/
theorem char_toNat_ofNat_valid {n : Nat} (h : n.isValidChar) :
    (Char.ofNat n).toNat = n := by
  unfold Char.ofNat
  rw [dif_pos h]
  rfl

/-- The branch structure of `Char.toLower`. -/
theorem toLower_eq_ite (c : Char) :
    c.toLower = if c.toNat ≥ 65 ∧ c.toNat ≤ 90 then Char.ofNat (c.toNat + 32) else c := rfl

/-- ASCII lowercasing is idempotent. -/
theorem toLower_toLower (c : Char) : c.toLower.toLower = c.toLower := by
  rw [toLower_eq_ite c]
  by_cases h : c.toNat ≥ 65 ∧ c.toNat ≤ 90
  · rw [if_pos h]
    have hval : (c.toNat + 32).isValidChar := Or.inl (by omega)
    have ht : (Char.ofNat (c.toNat + 32)).toNat = c.toNat + 32 :=
      char_toNat_ofNat_valid hval
    rw [toLower_eq_ite (Char.ofNat (c.toNat + 32))]
    rw [if_neg (by rw [ht]; omega)]
  · rw [if_neg h, toLower_eq_ite c, if_neg h]

/-- `pyLower` distributes over append. -/
theorem pyLower_append (a b : Str) : pyLower (a ++ b) = pyLower a ++ pyLower b :=
  List.map_append Char.toLower a b

/-- `pyLower` is idempotent. -/
theorem pyLower_pyLower (s : Str) : pyLower (pyLower s) = pyLower s := by
  induction s with
  | nil => rfl
  | cons c cs ih =>
    simp only [pyLower, List.map_cons] at ih ⊢
    rw [toLower_toLower]
    exact congrArg _ ih

/-- The initials are already lowercase, so the second `lower` pass in
`base_name` leaves them unchanged. -/
theorem pyLower_mkInitials (g m : Str) : pyLower (mkInitials g m) = mkInitials g m := by
  unfold mkInitials
  by_cases hm : m = []
  · rw [if_pos hm]
    simp [pyLower_pyLower]
  · rw [if_neg hm, pyLower_append]
    simp [pyLower_pyLower]

/-- The initials are at most two characters. -/
theorem mkInitials_length (g m : Str) : (mkInitials g m).length ≤ 2 := by
  unfold mkInitials
  rw [List.length_append]
  have h1 : (pyLower (g.take 1)).length ≤ 1 := by
    simp [pyLower, List.length_take]
  have h2 : (if m = [] then [] else pyLower (m.take 1)).length ≤ 1 := by
    by_cases hm : m = []
    · simp [hm]
    · rw [if_neg hm]
      simp [pyLower, List.length_take]
  omega

/-- The initials are a prefix of the truncated, lowercased base name. -/
theorem mkInitials_prefix_baseName (g m f : Str) :
    mkInitials g m <+: baseName g m f := by
  unfold baseName
  rw [pyLower_append, pyLower_mkInitials]
  rw [List.take_append_eq_append_take]
  have hlen : (mkInitials g m).length ≤ 8 := le_trans (mkInitials_length g m) (by omega)
  rw [List.take_of_length_le hlen]
  exact List.prefix_append _ _

/-- The truncated base name has at most eight characters. -/
theorem baseName_length_le (g m f : Str) : (baseName g m f).length ≤ 8 := by
  unfold baseName
  rw [List.length_take]
  omega

/-- Every candidate of the collision loop extends the base name. -/
theorem base_prefix_candidate (base : Str) (k : Nat) : base <+: candidate base k := by
  match k with
  | 0 => exact List.prefix_refl base
  | k + 1 => exact List.prefix_append base (natStr (k + 1))

/-! ### Structural facts about the parser run -/

/-- Processing a line list one line at a time: head first, then the tail
against the updated registry. -/
theorem processLines_cons (l : Str) (ls : List Str) (reg : Finset Str) :
    processLines (l :: ls) reg =
      ⟨(processLines [l] reg).records ++
          (processLines ls (processLines [l] reg).registry).records,
        (processLines [l] reg).errors ++
          (processLines ls (processLines [l] reg).registry).errors,
        (processLines ls (processLines [l] reg).registry).registry⟩ := by
  cases houtcome : processLine l with
  | skip => simp [processLines, houtcome]
  | warn a b => simp [processLines, houtcome]
  | record a b c d e => simp [processLines, houtcome]

/-- The registry only grows along a line list, by exactly one login per
emitted record. -/
theorem processLines_registry (ls : List Str) :
    ∀ reg : Finset Str,
      reg ⊆ (processLines ls reg).registry ∧
      (processLines ls reg).registry.card =
        reg.card + (processLines ls reg).records.length := by
  induction ls with
  | nil => intro reg; simp [processLines]
  | cons l ls ih =>
    intro reg
    cases houtcome : processLine l with
    | skip =>
      simp only [processLines, houtcome]
      exact ih reg
    | warn a b =>
      simp only [processLines, houtcome]
      exact ih reg
    | record a b c d e =>
      obtain ⟨-, hnot, hins⟩ := create_login_name_spec b c d reg
      have hsub : reg ⊆ (create_login_name b c d reg).2 := by
        rw [hins]
        exact Finset.subset_insert _ _
      have hcard : (create_login_name b c d reg).2.card = reg.card + 1 := by
        rw [hins]
        exact Finset.card_insert_of_not_mem hnot
      have hih := ih (create_login_name b c d reg).2
      simp only [processLines, houtcome, List.length_cons]
      refine ⟨hsub.trans hih.1, ?_⟩
      rw [hih.2, hcard]
      omega

/-- The registry only grows across files, by exactly one login per
emitted record. -/
theorem read_input_files_registry (fs : List InputFile) :
    ∀ reg : Finset Str,
      reg ⊆ (read_input_files fs reg).registry ∧
      (read_input_files fs reg).registry.card =
        reg.card + (read_input_files fs reg).records.length := by
  induction fs with
  | nil => intro reg; simp [read_input_files]
  | cons f fs ih =>
    intro reg
    cases f with
    | ok path lines =>
      have h1 := processLines_registry lines reg
      have h2 := ih (processLines lines reg).registry
      simp only [read_input_files, List.length_append]
      exact ⟨h1.1.trans h2.1, by rw [h2.2, h1.2]; omega⟩
    | readError path lines msg =>
      have h1 := processLines_registry lines reg
      have h2 := ih (processLines lines reg).registry
      simp only [read_input_files, List.length_append]
      exact ⟨h1.1.trans h2.1, by rw [h2.2, h1.2]; omega⟩

/-- Runs compose: the files are processed in list order, with the second
batch starting from the registry the first batch left behind. -/
theorem read_input_files_append (fs1 fs2 : List InputFile) :
    ∀ reg : Finset Str,
      read_input_files (fs1 ++ fs2) reg =
        ⟨(read_input_files fs1 reg).records ++
            (read_input_files fs2 (read_input_files fs1 reg).registry).records,
          (read_input_files fs1 reg).errors ++
            (read_input_files fs2 (read_input_files fs1 reg).registry).errors,
          (read_input_files fs2 (read_input_files fs1 reg).registry).registry⟩ := by
  induction fs1 with
  | nil => intro reg; simp [read_input_files]
  | cons f fs ih =>
    intro reg
    cases f with
    | ok path lines =>
      simp only [List.cons_append, read_input_files, List.append_eq]
      rw [ih]
      simp [List.append_assoc]
    | readError path lines msg =>
      simp only [List.cons_append, read_input_files, List.append_eq]
      rw [ih]
      simp [List.append_assoc]

/-- Run invariant for a sequence of generator calls: the returned logins
are pairwise distinct, none was registered before the run, and the final
registry is the initial one plus exactly the returned logins. -/
theorem runGen_spec (ts : List (Str × Str × Str)) :
    ∀ reg : Finset Str,
      (runGen ts reg).1.Nodup ∧
      (∀ l ∈ (runGen ts reg).1, l ∉ reg) ∧
      (runGen ts reg).2 = reg ∪ (runGen ts reg).1.toFinset := by
  induction ts with
  | nil => intro reg; simp [runGen]
  | cons t ts ih =>
    intro reg
    obtain ⟨-, hnot, hins⟩ := create_login_name_spec t.1 t.2.1 t.2.2 reg
    have hih := ih (create_login_name t.1 t.2.1 t.2.2 reg).2
    simp only [runGen]
    refine ⟨?_, ?_, ?_⟩
    · rw [List.nodup_cons]
      refine ⟨fun hmem => ?_, hih.1⟩
      have := hih.2.1 _ hmem
      rw [hins] at this
      exact this (Finset.mem_insert_self _ _)
    · intro l hl
      rcases List.mem_cons.mp hl with rfl | hl
      · exact hnot
      · intro hlr
        have := hih.2.1 _ hl
        rw [hins] at this
        exact this (Finset.mem_insert_of_mem hlr)
    · rw [hih.2.2, hins]
      simp only [List.toFinset_cons]
      rw [Finset.insert_union, Finset.union_insert]

/-- One loop step on a registered candidate moves to the next counter. -/
theorem searchFrom_step (base : Str) (reg : Finset Str) (fuel k : Nat)
    (h : candidate base k ∈ reg) :
    searchFrom base reg (fuel + 1) k = searchFrom base reg fuel (k + 1) := by
  simp [searchFrom, h]

/-- The loop returns the current candidate as soon as it is free. -/
theorem searchFrom_first_free (base : Str) (reg : Finset Str) (fuel k : Nat)
    (h : candidate base k ∉ reg) :
    searchFrom base reg (fuel + 1) k = some (candidate base k) := by
  simp [searchFrom, h]

/-- On an empty registry the generator returns the base name itself. -/
theorem create_login_name_empty (g m f : Str) :
    (create_login_name g m f ∅).1 = baseName g m f := by
  have h : candidate (baseName g m f) 0 ∉ (∅ : Finset Str) := Finset.not_mem_empty _
  have hs := searchFrom_first_free (baseName g m f) ∅ 0 0 h
  simp only [candidate] at hs
  simp [create_login_name, Finset.card_empty, hs]

/-- Unfolding the successor case of `candidate`. -/
theorem candidate_succ (base : Str) (k : Nat) :
    candidate base (k + 1) = base ++ natStr (k + 1) := rfl

/-- Against a registry holding exactly its own base, the generator
returns the base with suffix `1`. -/
theorem create_login_name_collision (g m f b : Str) (hb : baseName g m f = b) :
    (create_login_name g m f (insert b ∅)).1 = b ++ natStr 1 := by
  have hc : candidate b 1 = b ++ natStr 1 := candidate_succ b 0
  have h0 : candidate b 0 ∈ insert b (∅ : Finset Str) := by simp [candidate]
  have hne : candidate b 1 ≠ b := by
    intro hE
    have hlen := congrArg List.length hE
    rw [hc, List.length_append] at hlen
    exact natStr_ne_nil 1 (List.length_eq_zero.mp (by omega))
  have h1 : candidate b 1 ∉ insert b (∅ : Finset Str) := by
    rw [Finset.mem_insert]
    push_neg
    exact ⟨hne, Finset.not_mem_empty _⟩
  have hcard : (insert b (∅ : Finset Str)).card + 1 = 1 + 1 := by simp
  have hstep : searchFrom b (insert b ∅) (1 + 1) 0 = searchFrom b (insert b ∅) 1 1 :=
    searchFrom_step b (insert b ∅) 1 0 h0
  have hfree : searchFrom b (insert b ∅) 1 1 = some (b ++ natStr 1) := by
    rw [searchFrom_first_free b (insert b ∅) 0 1 h1]
    rw [hc]
  show (searchFrom (baseName g m f) (insert b ∅)
      ((insert b (∅ : Finset Str)).card + 1) 0).getD (baseName g m f) = b ++ natStr 1
  rw [hb, hcard, hstep, hfree]
  rfl

/-- The surname field `read_input_files` checks is the one the spec
names: `parts[2]` for 4 parts, `parts[3]` otherwise. -/
theorem fieldMap_surname (parts : List Str) (h : 4 ≤ parts.length) :
    (fieldMap parts).2.1 = specSurnamePart parts := by
  by_cases h4 : parts.length = 4
  · simp [fieldMap, specSurnamePart, h4]
  · by_cases h5 : parts.length = 5
    · simp [fieldMap, specSurnamePart, h5]
    · have h6 : 5 < parts.length := by omega
      simp [fieldMap, specSurnamePart, h4, h5, h6]

/-! ### The claims -/

/-- Claim C1: for every run of `create_login_name` calls against one
shared registry — the call sequence a run of `read_input_files` performs,
whatever files the records came from — each returned login is a member of
the registry immediately after its call returns, and no two calls of the
run return equal login strings. -/
theorem c1_global_login_uniqueness :
    (∀ g m f : Str, ∀ reg : Finset Str,
        (create_login_name g m f reg).1 ∈ (create_login_name g m f reg).2) ∧
    (∀ ts : List (Str × Str × Str), ∀ reg : Finset Str,
        (runGen ts reg).1.Nodup ∧ ∀ l ∈ (runGen ts reg).1, l ∈ (runGen ts reg).2) := by
  constructor
  · intro g m f reg
    obtain ⟨-, -, hins⟩ := create_login_name_spec g m f reg
    rw [hins]
    exact Finset.mem_insert_self _ _
  · intro ts reg
    obtain ⟨hnodup, -, hunion⟩ := runGen_spec ts reg
    refine ⟨hnodup, fun l hl => ?_⟩
    rw [hunion]
    exact Finset.mem_union_right _ (List.mem_toFinset.mpr hl)

/-- Claim C2 counterexample: a read error that surfaces mid-file — Python
decodes lazily, so a decode or I/O failure can strike after valid lines
were already read and their records appended — does not contribute zero
records for that file: here the failed file contributes one record. -/
theorem c2_counterexample_midfile_failure :
    (read_input_files
        [InputFile.readError (str "f1") [str "1234:Anna:Smith:IT"] (str "bad byte")]
        ∅).records = [str "1234:asmith:Anna::Smith:IT"] ∧
    (read_input_files
        [InputFile.readError (str "f1") [str "1234:Anna:Smith:IT"] (str "bad byte")]
        ∅).records ≠ [] := by
  constructor
  · decide
  · decide

/-- Claim C2 (amended): a file whose read fails at open time contributes
zero records and is skipped entirely; a file whose read fails mid-way
contributes exactly the records of the lines it yielded before failing.
In both cases processing continues with the remaining files of the run
and the records of the other files are unaffected. -/
theorem c2_read_failure_continues (fs1 fs2 : List InputFile) (p msg : Str)
    (ls : List Str) (reg : Finset Str) :
    (read_input_files [InputFile.readError p [] msg] reg).records = [] ∧
    (read_input_files (fs1 ++ InputFile.readError p [] msg :: fs2) reg).records =
      (read_input_files (fs1 ++ fs2) reg).records ∧
    (read_input_files (fs1 ++ InputFile.readError p ls msg :: fs2) reg).records =
      (read_input_files (fs1 ++ InputFile.ok p ls :: fs2) reg).records := by
  refine ⟨by simp [read_input_files, processLines], ?_, ?_⟩
  · rw [read_input_files_append, read_input_files_append]
    simp [read_input_files, processLines]
  · rw [read_input_files_append, read_input_files_append]
    simp [read_input_files]

/-- Claim C4: field mapping by part count — 4 parts give no middle name,
5 parts give `parts[2]/parts[3]/parts[4]`, more than 5 parts rejoin the
department on `:` — the emitted record is the colon-joined six fields,
and the two concrete examples from the spec. -/
theorem c4_field_mapping :
    (∀ parts : List Str, parts.length = 4 →
        fieldMap parts = ([], parts.getD 2 [], parts.getD 3 [])) ∧
    (∀ parts : List Str, parts.length = 5 →
        fieldMap parts = (parts.getD 2 [], parts.getD 3 [], parts.getD 4 [])) ∧
    (∀ parts : List Str, 5 < parts.length →
        fieldMap parts = (parts.getD 2 [], parts.getD 3 [], pyJoin [':'] (parts.drop 4))) ∧
    (∀ raw : Str, ∀ reg : Finset Str, ∀ a g m s d : Str,
        processLine raw = LineOutcome.record a g m s d →
        (processLines [raw] reg).records =
          [outputLine a (create_login_name g m s reg).1 g m s d]) ∧
    ((processLines [str "1234:Anna:Smith:IT"] ∅).records =
        [str "1234:asmith:Anna::Smith:IT"] ∧
      str ":Anna::Smith:IT" <:+ str "1234:asmith:Anna::Smith:IT") ∧
    processLine (str "9999:Anna:Marketing:Sales:HR:Global") =
      LineOutcome.record (str "9999") (str "Anna") (str "Marketing") (str "Sales")
        (str "HR:Global") := by
  refine ⟨?_, ?_, ?_, ?_, ⟨by decide, ⟨str "1234:asmith", by decide⟩⟩, by decide⟩
  · intro parts h4
    simp [fieldMap, h4]
  · intro parts h5
    simp [fieldMap, h5]
  · intro parts h6
    have h4 : parts.length ≠ 4 := by omega
    have h5 : parts.length ≠ 5 := by omega
    simp [fieldMap, h4, h5, h6]
  · intro raw reg a g m s d h
    simp [processLines, h]

/-- Witness for claim C4 at a concrete 4-field part list. -/
theorem c4_field_mapping_witness :
    ([str "1234", str "Anna", str "Smith", str "IT"].length = 4) ∧
    fieldMap [str "1234", str "Anna", str "Smith", str "IT"] =
      ([], str "Smith", str "IT") :=
  ⟨by decide, c4_field_mapping.1 [str "1234", str "Anna", str "Smith", str "IT"] (by decide)⟩

/-- Claim C5: the 5-field Hurban line on an empty registry produces login
`jmhurban` and the expected record; and whenever two successive calls on
an initially empty registry share a base string, the first returns the
base and the second returns the base with suffix `1` — as for the two
Pista Hufnagel records, which yield `phufnage` then `phufnage1`. -/
theorem c5_collision_resolution :
    ((processLines [str "1234:Jozef:Miloslav:Hurban:Legal"] ∅).records =
        [str "1234:jmhurban:Jozef:Miloslav:Hurban:Legal"] ∧
      (create_login_name (str "Jozef") (str "Miloslav") (str "Hurban") ∅).1 =
        str "jmhurban") ∧
    (∀ g1 m1 f1 g2 m2 f2 : Str,
        baseName g2 m2 f2 = baseName g1 m1 f1 →
        (create_login_name g1 m1 f1 ∅).1 = baseName g1 m1 f1 ∧
        (create_login_name g2 m2 f2 (create_login_name g1 m1 f1 ∅).2).1 =
          baseName g1 m1 f1 ++ natStr 1) ∧
    (runGen [(str "Pista", str "", str "Hufnagel"),
        (str "Pista", str "", str "Hufnagel")] ∅).1 =
      [str "phufnage", str "phufnage1"] := by
  refine ⟨⟨by decide, by decide⟩, ?_, by decide⟩
  intro g1 m1 f1 g2 m2 f2 hbase
  have h1 := create_login_name_empty g1 m1 f1
  refine ⟨h1, ?_⟩
  have hreg : (create_login_name g1 m1 f1 ∅).2 = insert (baseName g1 m1 f1) ∅ := by
    obtain ⟨-, -, hins⟩ := create_login_name_spec g1 m1 f1 ∅
    rw [hins, h1]
  rw [hreg]
  exact create_login_name_collision g2 m2 f2 (baseName g1 m1 f1) hbase

/-- Witness for claim C5: the two Hufnagel records share their base. -/
theorem c5_collision_resolution_witness :
    baseName (str "Pista") (str "") (str "Hufnagel") =
      baseName (str "Pista") (str "") (str "Hufnagel") ∧
    ((create_login_name (str "Pista") (str "") (str "Hufnagel") ∅).1 =
        baseName (str "Pista") (str "") (str "Hufnagel") ∧
      (create_login_name (str "Pista") (str "") (str "Hufnagel")
          (create_login_name (str "Pista") (str "") (str "Hufnagel") ∅).2).1 =
        baseName (str "Pista") (str "") (str "Hufnagel") ++ natStr 1) :=
  ⟨rfl, c5_collision_resolution.2.1 (str "Pista") (str "") (str "Hufnagel")
    (str "Pista") (str "") (str "Hufnagel") rfl⟩

/-- Claim C6: when the initials-plus-surname string exceeds 8 characters
the base has length exactly 8 (and it never exceeds 8); the returned
login is the truncated base, possibly followed by the decimal digits of
the counter, and is never re-truncated. -/
theorem c6_truncation_suffix_law :
    (∀ g m f : Str, 8 < (mkInitials g m ++ f).length → (baseName g m f).length = 8) ∧
    (∀ g m f : Str, (baseName g m f).length ≤ 8) ∧
    (∀ g m f : Str, ∀ reg : Finset Str,
        (create_login_name g m f reg).1 = baseName g m f ∨
        ∃ k, 1 ≤ k ∧ (create_login_name g m f reg).1 = baseName g m f ++ natStr k) := by
  refine ⟨?_, baseName_length_le, ?_⟩
  · intro g m f h
    unfold baseName
    rw [List.length_take]
    have hlen : (pyLower (mkInitials g m ++ f)).length = (mkInitials g m ++ f).length := by
      simp [pyLower]
    omega
  · intro g m f reg
    obtain ⟨⟨k, hk⟩, -, -⟩ := create_login_name_spec g m f reg
    cases k with
    | zero => exact Or.inl hk
    | succ j => exact Or.inr ⟨j + 1, by omega, hk⟩

/-- Witness for claim C6 at the Hufnagel input, whose base exceeds 8
characters before truncation. -/
theorem c6_truncation_suffix_law_witness :
    8 < (mkInitials (str "Pista") (str "") ++ str "Hufnagel").length ∧
    (baseName (str "Pista") (str "") (str "Hufnagel")).length = 8 :=
  ⟨by decide, c6_truncation_suffix_law.1 (str "Pista") (str "") (str "Hufnagel") (by decide)⟩

/-- Claim C7: records appear in production order — files in list order,
lines in file order — with no sorting and no deduplication by ID:
duplicate IDs, within one file or across two files, produce two distinct
records carrying two distinct logins. -/
theorem c7_output_order_no_dedup :
    (∀ fs1 fs2 : List InputFile, ∀ reg : Finset Str,
        (read_input_files (fs1 ++ fs2) reg).records =
          (read_input_files fs1 reg).records ++
            (read_input_files fs2 (read_input_files fs1 reg).registry).records) ∧
    (∀ l : Str, ∀ ls : List Str, ∀ reg : Finset Str,
        (processLines (l :: ls) reg).records =
          (processLines [l] reg).records ++
            (processLines ls (processLines [l] reg).registry).records) ∧
    ((processLines
          [str "1111:Pista::Hufnagel:Sales", str "1111:Pista::Hufnagel:Sales"]
          ∅).records =
        [str "1111:phufnage:Pista::Hufnagel:Sales",
          str "1111:phufnage1:Pista::Hufnagel:Sales"] ∧
      str "1111:phufnage:Pista::Hufnagel:Sales" ≠
        str "1111:phufnage1:Pista::Hufnagel:Sales") ∧
    (read_input_files
        [InputFile.ok (str "a.txt") [str "1111:Pista::Hufnagel:Sales"],
          InputFile.ok (str "b.txt") [str "1111:Pista::Hufnagel:Sales"]] ∅).records =
      [str "1111:phufnage:Pista::Hufnagel:Sales",
        str "1111:phufnage1:Pista::Hufnagel:Sales"] := by
  refine ⟨?_, ?_, ⟨by decide, by decide⟩, by decide⟩
  · intro fs1 fs2 reg
    rw [read_input_files_append]
  · intro l ls reg
    rw [processLines_cons]

/-- Claim C8: for a triple with non-empty surname, the returned login
starts with the lowercased initials — the first letter of the given name
(nothing when it is empty) then the first letter of a non-empty middle
name — surviving both the 8-character truncation and any numeric suffix,
and the registry afterwards contains the returned login. -/
theorem c8_initials_prefix (g m f : Str) (reg : Finset Str) (hf : f ≠ []) :
    mkInitials g m <+: (create_login_name g m f reg).1 ∧
    (create_login_name g m f reg).1 ∈ (create_login_name g m f reg).2 := by
  obtain ⟨⟨k, hk⟩, -, hins⟩ := create_login_name_spec g m f reg
  constructor
  · rw [hk]
    exact (mkInitials_prefix_baseName g m f).trans (base_prefix_candidate _ k)
  · rw [hins]
    exact Finset.mem_insert_self _ _

/-- Witness for claim C8 at the Hurban input. -/
theorem c8_initials_prefix_witness :
    str "Hurban" ≠ ([] : Str) ∧
    (mkInitials (str "Jozef") (str "Miloslav") <+:
        (create_login_name (str "Jozef") (str "Miloslav") (str "Hurban") ∅).1 ∧
      (create_login_name (str "Jozef") (str "Miloslav") (str "Hurban") ∅).1 ∈
        (create_login_name (str "Jozef") (str "Miloslav") (str "Hurban") ∅).2) :=
  ⟨by decide, c8_initials_prefix (str "Jozef") (str "Miloslav") (str "Hurban") ∅ (by decide)⟩

/-- Claim C9: the collision loop terminates on every input — for any
finite registry some candidate is free, and the fueled loop body finds a
result within its `reg.card + 1` budget, so `create_login_name` and a run
over finitely many files are total. -/
theorem c9_loop_termination (g m f : Str) (reg : Finset Str) :
    (∃ k, candidate (baseName g m f) k ∉ reg) ∧
    (searchFrom (baseName g m f) reg (reg.card + 1) 0).isSome = true := by
  obtain ⟨j, hj, hfree⟩ := exists_candidate_free (baseName g m f) reg
  exact ⟨⟨j, hfree⟩, searchFrom_isSome _ _ _ _ ⟨j, by omega, by simpa using hfree⟩⟩

/-- Claim C10: each `create_login_name` call adds exactly one element —
the login it returns — and removes nothing; a generator run ends with the
initial registry plus exactly the returned logins; `read_input_files`
never removes registry elements and grows the registry by exactly one
login per emitted record. -/
theorem c10_registry_monotonicity :
    (∀ g m f : Str, ∀ reg : Finset Str,
        (create_login_name g m f reg).2 = insert (create_login_name g m f reg).1 reg ∧
        reg ⊆ (create_login_name g m f reg).2 ∧
        (create_login_name g m f reg).2.card = reg.card + 1) ∧
    (∀ ts : List (Str × Str × Str), ∀ reg : Finset Str,
        (runGen ts reg).2 = reg ∪ (runGen ts reg).1.toFinset) ∧
    (∀ fs : List InputFile, ∀ reg : Finset Str,
        reg ⊆ (read_input_files fs reg).registry ∧
        (read_input_files fs reg).registry.card =
          reg.card + (read_input_files fs reg).records.length) := by
  refine ⟨?_, fun ts reg => (runGen_spec ts reg).2.2,
    fun fs reg => read_input_files_registry fs reg⟩
  intro g m f reg
  obtain ⟨-, hnot, hins⟩ := create_login_name_spec g m f reg
  refine ⟨hins, ?_, ?_⟩
  · rw [hins]
    exact Finset.subset_insert _ _
  · rw [hins]
    exact Finset.card_insert_of_not_mem hnot

/-- Claim C3 counterexample: for the raw line with a leading tab, the
emitted warning names the trimmed line `99x:A:B:C`, not the original
line, because the code strips the line before formatting the warning. -/
theorem c3_counterexample_warning_line :
    (processLines [str "\t99x:A:B:C"] ∅).errors =
      [warnMsg (str "99x") (str "99x:A:B:C")] ∧
    (processLines [str "\t99x:A:B:C"] ∅).errors ≠
      [warnMsg (str "99x") (str "\t99x:A:B:C")] :=
  ⟨by decide, by decide⟩

/-- Claim C3 (amended: the warning names the bad id and the trimmed
line): a raw line produces exactly one record iff, after trimming, it is
non-empty, splits on `:` into at least 4 trimmed parts, has an all-digit
first part and a non-blank surname part — zero records otherwise — and
it draws a warning naming the bad id and the trimmed line exactly when
it is non-empty with at least 4 parts and a non-digit first part. -/
theorem c3_line_acceptance (raw : Str) (reg : Finset Str) :
    (processLines [raw] reg).records.length = (if specAccepts raw then 1 else 0) ∧
    (processLines [raw] reg).errors =
      (if specWarns raw then
          [warnMsg (((pySplit ':' (pyStrip raw)).map pyStrip).getD 0 []) (pyStrip raw)]
        else []) := by
  by_cases h1 : pyStrip raw = []
  · have e1 : decide (pyStrip raw ≠ []) = false :=
      decide_eq_false (fun hne => hne h1)
    have hout : processLine raw = LineOutcome.skip := by
      simp only [processLine]
      rw [if_pos h1]
    have hacc : specAccepts raw = false := by
      simp only [specAccepts]
      rw [e1]
      simp only [Bool.false_and]
    have hwarn : specWarns raw = false := by
      simp only [specWarns]
      rw [e1]
      simp only [Bool.false_and]
    simp [processLines, hout, hacc, hwarn]
  · have e1 : decide (pyStrip raw ≠ []) = true := decide_eq_true h1
    by_cases h2 : ((pySplit ':' (pyStrip raw)).map pyStrip).length < 4
    · have e2 : decide (4 ≤ ((pySplit ':' (pyStrip raw)).map pyStrip).length) = false :=
        decide_eq_false (by omega)
      have hout : processLine raw = LineOutcome.skip := by
        simp only [processLine]
        rw [if_neg h1, if_pos h2]
      have hacc : specAccepts raw = false := by
        simp only [specAccepts]
        rw [e2]
        simp only [Bool.and_false, Bool.false_and]
      have hwarn : specWarns raw = false := by
        simp only [specWarns]
        rw [e2]
        simp only [Bool.and_false, Bool.false_and]
      simp [processLines, hout, hacc, hwarn]
    · have h2' : 4 ≤ ((pySplit ':' (pyStrip raw)).map pyStrip).length := by omega
      have e2 : decide (4 ≤ ((pySplit ':' (pyStrip raw)).map pyStrip).length) = true :=
        decide_eq_true h2'
      by_cases hd : pyIsDigit (((pySplit ':' (pyStrip raw)).map pyStrip).getD 0 []) = true
      · have hsur : (fieldMap ((pySplit ':' (pyStrip raw)).map pyStrip)).2.1 =
            specSurnamePart ((pySplit ':' (pyStrip raw)).map pyStrip) :=
          fieldMap_surname _ h2'
        by_cases hs :
            pyStrip (specSurnamePart ((pySplit ':' (pyStrip raw)).map pyStrip)) = []
        · have e4 : decide (pyStrip
              (specSurnamePart ((pySplit ':' (pyStrip raw)).map pyStrip)) ≠ []) = false :=
            decide_eq_false (fun hne => hne hs)
          have hout : processLine raw = LineOutcome.skip := by
            simp only [processLine]
            rw [if_neg h1, if_neg h2, hd, Bool.not_true,
              if_neg Bool.false_ne_true, hsur, if_pos hs]
          have hacc : specAccepts raw = false := by
            simp only [specAccepts]
            rw [e4]
            simp only [Bool.and_false]
          have hwarn : specWarns raw = false := by
            simp only [specWarns]
            rw [hd]
            simp only [Bool.not_true, Bool.and_false]
          simp [processLines, hout, hacc, hwarn]
        · have e4 : decide (pyStrip
              (specSurnamePart ((pySplit ':' (pyStrip raw)).map pyStrip)) ≠ []) = true :=
            decide_eq_true hs
          have hout : processLine raw = LineOutcome.record
              (((pySplit ':' (pyStrip raw)).map pyStrip).getD 0 [])
              (((pySplit ':' (pyStrip raw)).map pyStrip).getD 1 [])
              (fieldMap ((pySplit ':' (pyStrip raw)).map pyStrip)).1
              (specSurnamePart ((pySplit ':' (pyStrip raw)).map pyStrip))
              (fieldMap ((pySplit ':' (pyStrip raw)).map pyStrip)).2.2 := by
            simp only [processLine]
            rw [if_neg h1, if_neg h2, hd, Bool.not_true,
              if_neg Bool.false_ne_true, hsur, if_neg hs]
          have hacc : specAccepts raw = true := by
            simp only [specAccepts]
            rw [e1, e2, hd, e4]
            decide
          have hwarn : specWarns raw = false := by
            simp only [specWarns]
            rw [hd]
            simp only [Bool.not_true, Bool.and_false]
          simp [processLines, hout, hacc, hwarn]
      · have hd' : pyIsDigit (((pySplit ':' (pyStrip raw)).map pyStrip).getD 0 []) = false := by
          simpa using hd
        have hout : processLine raw = LineOutcome.warn
            (((pySplit ':' (pyStrip raw)).map pyStrip).getD 0 []) (pyStrip raw) := by
          simp only [processLine]
          rw [if_neg h1, if_neg h2, hd', Bool.not_false, if_pos rfl]
        have hacc : specAccepts raw = false := by
          simp only [specAccepts]
          rw [hd']
          simp only [Bool.and_false, Bool.false_and]
        have hwarn : specWarns raw = true := by
          simp only [specWarns]
          rw [e1, e2, hd']
          decide
        simp [processLines, hout, hacc, hwarn]

/-- Witness for claim C1 on a concrete one-call run. -/
theorem c1_global_login_uniqueness_witness :
    str "phufnage" ∈ (runGen [(str "Pista", str "", str "Hufnagel")] ∅).2 :=
  (c1_global_login_uniqueness.2 [(str "Pista", str "", str "Hufnagel")] ∅).2
    (str "phufnage") (by decide)

end UGen
